import Mathlib

/-!
Verification of the orchestration engine of
`src/core/system_orchestrator_enhanced.py` (class `EnhancedSystemOrchestrator`).

The embedding is shallow and executable.  External effects are modelled by an
`Env` oracle: which scripts exist on disk, whether a spawned process survives
its startup delay, whether a process is alive / its port is open / its health
endpoint answers 200 at probe time, and how `terminate()`/`kill()` behave
(graceful, force-kill after timeout, or raising an exception).  A fixed `Env`
describes one possible world; theorems quantify over worlds or pick concrete
ones.

The running-process dictionary `self.processes` is a Python dict: insertion
ordered, updated in place on key assignment, re-appended at the end after
`del` + re-insert.  It is modelled as an association list with exactly those
operations (`dictInsert`, `dictErase`, `dictLookup`).

`get_startup_order` iterates over a Python `set` of component names
(`remaining = set(self.components.keys())`).  CPython set iteration order for
strings is hash-based and not a function of the registry (it varies with
`PYTHONHASHSEED`); removal preserves the relative order of the remaining
elements.  The embedding therefore takes the enumeration order of that set as
an explicit parameter `enum` and models removal as list filtering, which
preserves relative order.
-/

namespace Orchestrator

/-- A component's dict entry in `self.components` (lines 60-204). -/
structure ComponentSpec where
  script : String
  port : Option Nat := none
  health_endpoint : Option String := none
  dependencies : List String := []
  service_type : String := "service"
  critical : Bool := false
  restart_policy : String := "manual"
  startup_delay : Nat := 0
  optional : Bool := false
deriving DecidableEq, Repr

/-- The component registry `self.components`: a Python dict literal, hence an
insertion-ordered association list. -/
def Registry := List (String × ComponentSpec)

/-- Outcome of the `terminate()` / `wait(timeout=10)` / `kill()` sequence in
`stop_component` (lines 383-402): the process exits within the grace period,
it must be force-killed after `TimeoutExpired`, or one of the calls raises an
exception (the `except Exception` path). -/
inductive TermOutcome
  | graceful
  | forceKill
  | error
deriving DecidableEq, Repr

/-- The external world: scripts on disk, process behaviour, network probes.
Keyed by component name. -/
structure Env where
  scriptExists : String → Bool
  spawnOk : String → Bool
  alive : String → Bool
  portOpen : String → Bool
  httpOk : String → Bool
  termOutcome : String → TermOutcome

/-- An entry of `self.processes` (lines 346-351): start time, restart counter
and the snapshot of the component's spec stored as `component_info`. -/
structure RunningInstance where
  start_time : Nat
  restart_count : Nat
  component_info : ComponentSpec
deriving DecidableEq, Repr

/-- Orchestrator state: the running map (`self.processes`, a Python dict, so
insertion ordered), the `self.running` flag, and a clock standing in for
`datetime.now()`. -/
structure OrchState where
  processes : List (String × RunningInstance)
  running : Bool
  clock : Nat
deriving DecidableEq, Repr

/-- Python dict lookup `d.get(k)` on the association list. -/
def dictLookup {α : Type} : List (String × α) → String → Option α
  | [], _ => none
  | (k, v) :: rest, key => if k = key then some v else dictLookup rest key

/-- Python dict assignment `d[k] = v`: updates in place when the key is
present, appends otherwise. -/
def dictInsert {α : Type} : List (String × α) → String → α → List (String × α)
  | [], key, v => [(key, v)]
  | (k, w) :: rest, key, v =>
    if k = key then (k, v) :: rest else (k, w) :: dictInsert rest key v

/-- Python `del d[k]` (no-op here when the key is absent; the source only
deletes keys it has just looked up). -/
def dictErase {α : Type} : List (String × α) → String → List (String × α)
  | [], _ => []
  | (k, v) :: rest, key => if k = key then rest else (k, v) :: dictErase rest key

/-- Boolean membership in a list of names (Python `in` on a list). -/
def memb (x : String) : List String → Bool
  | [] => false
  | y :: ys => if y = x then true else memb x ys

/-- The dependency list of a component (`component.get('dependencies', [])`). -/
def depsOf (reg : Registry) (n : String) : List String :=
  ((dictLookup reg n).map ComponentSpec.dependencies).getD []

/-- A component's startup delay (`self.components[x].get('startup_delay', 0)`),
the key `get_startup_order` sorts by. -/
def delayOf (reg : Registry) (n : String) : Nat :=
  ((dictLookup reg n).map ComponentSpec.startup_delay).getD 0

/-- A component's criticality (`component.get('critical', False)`). -/
def criticalOf (reg : Registry) (n : String) : Bool :=
  ((dictLookup reg n).map ComponentSpec.critical).getD false

/-- `check_component_dependencies` (lines 257-272): every declared dependency
must be a key of the running map whose process is still alive
(`poll() is None`). -/
def check_component_dependencies (env : Env) (reg : Registry) (st : OrchState)
    (name : String) : Bool :=
  (depsOf reg name).all fun dep =>
    match dictLookup st.processes dep with
    | none => false
    | some _ => env.alive dep

/-- Whether `get_startup_order` keeps a component in its working set
(lines 280-286): dropped exactly when it is optional and its script is absent
from disk. -/
def activeKeep (env : Env) (reg : Registry) (n : String) : Bool :=
  match dictLookup reg n with
  | none => true
  | some c => !(c.optional && !(env.scriptExists c.script))

/-- The resolver's working set after removing optional components whose launch
target is missing, in the enumeration order of the Python set. -/
def activeFilter (env : Env) (reg : Registry) (enum : List String) : List String :=
  enum.filter (activeKeep env reg)

/-- A registry component that is non-excluded: present in the registry and not
an optional component whose script is missing. -/
def isActive (env : Env) (reg : Registry) (n : String) : Bool :=
  match dictLookup reg n with
  | none => false
  | some c => !(c.optional && !(env.scriptExists c.script))

/-- Stable insertion of a name into a delay-sorted list: the new element goes
before the first element of strictly no smaller delay, matching the stability
of Python's `list.sort`. -/
def insertDelay (reg : Registry) (x : String) : List String → List String
  | [] => [x]
  | y :: ys =>
    if delayOf reg y < delayOf reg x then y :: insertDelay reg x ys
    else x :: y :: ys

/-- `ready.sort(key=lambda x: ... startup_delay)` (line 302): a stable sort by
ascending startup delay (Python's sort is stable, so equal delays keep the
iteration order of the set). -/
def sortDelay (reg : Registry) : List String → List String
  | [] => []
  | x :: xs => insertDelay reg x (sortDelay reg xs)

/-- The `ready` list of one pass of `get_startup_order` (lines 290-294): the
remaining components whose every dependency is already ordered or not part of
the remaining set.  A dependency absent from the registry is never in
`remaining`, so it passes this test. -/
def readyOf (reg : Registry) (ordered remaining : List String) : List String :=
  remaining.filter fun n =>
    (depsOf reg n).all fun d => memb d ordered || !(memb d remaining)

/-- The `while remaining:` loop of `get_startup_order` (lines 288-307).
Each pass collects the components whose every dependency is already ordered or
outside the remaining set, sorts them by startup delay, appends them and
removes them from `remaining`.  When no component is eligible the source logs
"Circular or missing dependencies detected: {remaining}" and breaks; the
leftover set is returned as the second component (the content of that log).
`fuel` bounds the iteration count; `remaining.length` is always enough. -/
def startupLoop (reg : Registry) : Nat → List String → List String →
    List String × List String
  | 0, ordered, remaining => (ordered, remaining)
  | fuel + 1, ordered, remaining =>
    if remaining = [] then (ordered, remaining)
    else if readyOf reg ordered remaining = [] then (ordered, remaining)
    else
      startupLoop reg fuel
        (ordered ++ sortDelay reg (readyOf reg ordered remaining))
        (remaining.filter fun n =>
          !(memb n (sortDelay reg (readyOf reg ordered remaining))))

/-- `get_startup_order` (lines 274-308).  Returns the computed order together
with the unresolved set logged at the `break` (empty when resolution
completed).  `enum` is the iteration order of `set(self.components.keys())`,
which CPython does not derive from the registry alone. -/
def get_startup_order (env : Env) (reg : Registry) (enum : List String) :
    List String × List String :=
  let remaining := activeFilter env reg enum
  startupLoop reg remaining.length [] remaining

/-- `start_component` (lines 310-370).  Returns the success flag and the new
state.  A process that dies during its startup delay is inserted and deleted
again (lines 346-365), which nets to an unchanged map, as does an exception
from `Popen`; both collapse into `env.spawnOk name = false`. -/
def start_component (env : Env) (reg : Registry) (st : OrchState)
    (name : String) : Bool × OrchState :=
  match dictLookup st.processes name with
  | some _ => (true, st)
  | none =>
    match dictLookup reg name with
    | none => (false, st)
    | some comp =>
      if !(env.scriptExists comp.script) then
        if comp.optional then (true, st) else (false, st)
      else if !(check_component_dependencies env reg st name) then (false, st)
      else if env.spawnOk name then
        (true,
         { processes := dictInsert st.processes name
             { start_time := st.clock, restart_count := 0, component_info := comp },
           running := st.running,
           clock := st.clock + 1 })
      else (false, st)

/-- `stop_component` (lines 372-402).  The `del self.processes[component_name]`
sits inside the `try`, after the terminate/wait/kill sequence: when one of
those calls raises, the handler logs and returns `False` with the entry still
in the map. -/
def stop_component (env : Env) (st : OrchState) (name : String) :
    Bool × OrchState :=
  match dictLookup st.processes name with
  | none => (true, st)
  | some _ =>
    match env.termOutcome name with
    | TermOutcome.error => (false, st)
    | _ =>
      (true,
       { processes := dictErase st.processes name,
         running := st.running, clock := st.clock })

/-- `restart_component` (lines 626-636): bump the restart counter in place if
the component is currently in the map, then stop and start it. -/
def restart_component (env : Env) (reg : Registry) (st : OrchState)
    (name : String) : OrchState :=
  let st1 :=
    match dictLookup st.processes name with
    | some inst =>
      { processes := dictInsert st.processes name
          { inst with restart_count := inst.restart_count + 1 },
        running := st.running, clock := st.clock }
    | none => st
  let st2 := (stop_component env st1 name).2
  (start_component env reg st2 name).2

/-- `check_component_health` (lines 404-439): liveness, then TCP reachability
when the spec declares a port, then the HTTP endpoint when it declares both a
port and a health endpoint; each failing layer short-circuits to unhealthy. -/
def check_component_health (env : Env) (st : OrchState) (name : String) : Bool :=
  match dictLookup st.processes name with
  | none => false
  | some inst =>
    if !(env.alive name) then false
    else
      match inst.component_info.port with
      | none => true
      | some _ =>
        if !(env.portOpen name) then false
        else
          match inst.component_info.health_endpoint with
          | none => true
          | some _ => env.httpOk name

/-- How the startup loop of `start_all` ends: it either falls through to the
final `return len(failed_components) == 0` (line 611), or takes the early
`return False` after a critical component fails to start (line 596). -/
inductive StartOutcome
  | completed (allOk : Bool)
  | aborted
deriving DecidableEq, Repr

/-- The Bool `start_all` actually returns for each outcome. -/
def startOutcomeBool : StartOutcome → Bool
  | StartOutcome.completed b => b
  | StartOutcome.aborted => false

/-- The `for` loop of `start_all` (lines 581-596), threading the state, the
`failed_components` list and the trace of components on which
`start_component` was invoked.  A failed critical component returns
immediately; a failed non-critical one is recorded and the loop continues. -/
def start_all_go (env : Env) (reg : Registry) :
    List String → OrchState → List String → List String →
    StartOutcome × OrchState × List String × List String
  | [], st, failed, att => (StartOutcome.completed failed.isEmpty, st, failed, att)
  | name :: rest, st, failed, att =>
    let r := start_component env reg st name
    if r.1 then start_all_go env reg rest r.2 failed (att ++ [name])
    else
      let failed' := failed ++ [name]
      if criticalOf reg name then (StartOutcome.aborted, r.2, failed', att ++ [name])
      else start_all_go env reg rest r.2 failed' (att ++ [name])

/-- `start_all` (lines 569-611): resolve the order, start components in it,
abort on the first failed critical component.  Returns the overall Bool, the
final state, `failed_components` and the list of components attempted. -/
def start_all (env : Env) (reg : Registry) (enum : List String) (st : OrchState) :
    Bool × OrchState × List String × List String :=
  let order := (get_startup_order env reg enum).1
  let r := start_all_go env reg order st [] []
  (startOutcomeBool r.1, r.2)

/-- `stop_all` (lines 613-624): snapshot the running map's keys, reverse them,
and stop each in turn, ignoring per-stop failures.  The second result is the
sequence of components on which `stop_component` was invoked. -/
def stop_all (env : Env) (st : OrchState) : OrchState × List String :=
  let comps := (st.processes.map Prod.fst).reverse
  comps.foldl
    (fun acc n => ((stop_component env acc.1 n).2, acc.2 ++ [n])) (st, [])

/-- One component's treatment inside the monitor loop (lines 654-673): probe
health; when unhealthy, dispatch on the instance's `restart_policy`
(`'always'` restarts unconditionally, `'on_failure'` restarts while the
counter read from the map is below 3 and otherwise records the component as
failed, anything else records it as failed).  The accumulator carries the
state, `failed_components` and the trace of auto-restarted components (the
"Auto-restarting" log lines). -/
def monitor_step (env : Env) (reg : Registry)
    (acc : OrchState × List String × List String) (name : String) :
    OrchState × List String × List String :=
  let st := acc.1
  let failed := acc.2.1
  let restarted := acc.2.2
  if check_component_health env st name then acc
  else
    match dictLookup st.processes name with
    | none => acc
    | some inst =>
      let policy := inst.component_info.restart_policy
      if policy = "always" then
        (restart_component env reg st name, failed, restarted ++ [name])
      else if policy = "on_failure" then
        let restart_count :=
          ((dictLookup st.processes name).map RunningInstance.restart_count).getD 0
        if restart_count < 3 then
          (restart_component env reg st name, failed, restarted ++ [name])
        else (st, failed ++ [name], restarted)
      else (st, failed ++ [name], restarted)

/-- Position of a name in a list (first occurrence), used to state the
"strictly after its dependencies" property of the startup order. -/
def idx (a : String) : List String → Nat
  | [] => 0
  | x :: xs => if x = a then 0 else idx a xs + 1

/-- One iteration of `monitor_loop` (lines 649-683): walk the snapshot of the
running map's keys, treat each component, then single out the critical members
of `failed_components` (line 677) — a nonempty such list is the CRITICAL ALERT.
Returns the state, `failed_components`, the restarted trace and
`critical_failed`. -/
def monitor_iteration (env : Env) (reg : Registry) (st : OrchState) :
    OrchState × List String × List String × List String :=
  let snapshot := st.processes.map Prod.fst
  let r := snapshot.foldl (monitor_step env reg) (st, [], [])
  (r.1, r.2.1, r.2.2, r.2.1.filter (criticalOf reg))

/-- The dependency graph over non-excluded components: `n` depends on `d`,
both non-excluded. -/
def depEdge (env : Env) (reg : Registry) (n d : String) : Prop :=
  isActive env reg n = true ∧ isActive env reg d = true ∧ d ∈ depsOf reg n

/-! Concrete material used by witnesses, counterexamples and failing-input
evaluations. -/

/-- A world where every script exists, every spawn survives, every process is
alive, every port answers, every endpoint returns 200 and termination is
graceful. -/
def envOK : Env :=
  ⟨fun _ => true, fun _ => true, fun _ => true, fun _ => true, fun _ => true,
   fun _ => TermOutcome.graceful⟩

/-- Like `envOK` but `terminate()`/`kill()` raises. -/
def envTermError : Env :=
  ⟨fun _ => true, fun _ => true, fun _ => true, fun _ => true, fun _ => true,
   fun _ => TermOutcome.error⟩

/-- The orchestrator's initial state: nothing running. -/
def st0 : OrchState := ⟨[], true, 0⟩

/-- An `on_failure` component that declares port 5000
(so that an unreachable port makes it probe unhealthy while alive). -/
def ofSpec : ComponentSpec :=
  ⟨"c.py", some 5000, none, [], "service", false, "on_failure", 0, false⟩

/-- Registry with the single `on_failure` component `c`. -/
def c1reg : Registry := [("c", ofSpec)]

/-- A world where `c`'s process spawns and stays alive but never binds its
port: every probe is unhealthy, every stop and start succeeds. -/
def c1env : Env :=
  ⟨fun _ => true, fun _ => true, fun _ => true, fun _ => false, fun _ => true,
   fun _ => TermOutcome.graceful⟩

/-- State after `start_component` of `c` followed by `k` monitor iterations in
the world `c1env`. -/
def c1iter : Nat → OrchState
  | 0 => (start_component c1env c1reg st0 "c").2
  | k + 1 => (monitor_iteration c1env c1reg (c1iter k)).1

/-- An `on_failure` component with no port (liveness-only health contract). -/
def c2spec : ComponentSpec :=
  ⟨"c.py", none, none, [], "service", false, "on_failure", 0, false⟩

/-- Registry with the single component `c` used for the restart-counter
scenario. -/
def c2reg : Registry := [("c", c2spec)]

/-- `c` started. -/
def c2st1 : OrchState := (start_component envOK c2reg st0 "c").2

/-- Then restarted in a world where `terminate()` raises: the counter bump
survives because the stale entry is never replaced. -/
def c2st2 : OrchState := restart_component envTermError c2reg c2st1 "c"

/-- Then restarted in a world where stopping succeeds: the entry is deleted
and re-created from scratch. -/
def c2st3 : OrchState := restart_component envOK c2reg c2st2 "c"

/-- A registry whose only component names a dependency that is not in the
registry. -/
def regMissing : Registry :=
  [("b", ⟨"b.py", none, none, ["ghost"], "service", false, "manual", 0, false⟩)]

/-- A registry with a two-cycle `b ↔ c` plus an independent component `a`. -/
def regCycle : Registry :=
  [("a", ⟨"a.py", none, none, [], "service", false, "manual", 0, false⟩),
   ("b", ⟨"b.py", none, none, ["c"], "service", false, "manual", 0, false⟩),
   ("c", ⟨"c.py", none, none, ["b"], "service", false, "manual", 0, false⟩)]

/-- An acyclic three-component registry: `a`, `b` needs `a`, `c` needs both. -/
def regAcyclic : Registry :=
  [("a", ⟨"a.py", none, none, [], "service", false, "manual", 0, false⟩),
   ("b", ⟨"b.py", none, none, ["a"], "service", false, "manual", 5, false⟩),
   ("c", ⟨"c.py", none, none, ["a", "b"], "service", true, "manual", 2, false⟩)]

/-- A topological rank for `regAcyclic`. -/
def rankABC (n : String) : Nat :=
  if n = "a" then 0 else if n = "b" then 1 else 2

/-- A registry with an optional component whose script is missing and a
required component depending on it. -/
def c5reg : Registry :=
  [("opt", ⟨"missing.py", none, none, [], "service", false, "manual", 0, true⟩),
   ("b", ⟨"b.py", none, none, ["opt"], "service", false, "manual", 0, false⟩)]

/-- A world where exactly the script `missing.py` is absent from disk. -/
def c5env : Env :=
  ⟨fun s => !(s == "missing.py"), fun _ => true, fun _ => true, fun _ => true,
   fun _ => true, fun _ => TermOutcome.graceful⟩

/-- A state in which `c` is running. -/
def c6st : OrchState := ⟨[("c", ⟨0, 0, ofSpec⟩)], true, 1⟩

/-- A registry with a non-critical `a` and a critical `c`, no dependencies. -/
def c7reg : Registry :=
  [("a", ⟨"a.py", none, none, [], "service", false, "manual", 0, false⟩),
   ("c", ⟨"c.py", none, none, [], "service", true, "manual", 0, false⟩)]

/-- A world where every spawn survives except `c`'s, whose process dies during
its startup delay. -/
def c7env : Env :=
  ⟨fun _ => true, fun s => !(s == "c"), fun _ => true, fun _ => true,
   fun _ => true, fun _ => TermOutcome.graceful⟩

/-- A state with `a` then `b` running (started in that order). -/
def c8st : OrchState := ⟨[("a", ⟨0, 0, c2spec⟩), ("b", ⟨1, 0, c2spec⟩)], true, 2⟩

/-- Two components with equal startup delay whose names are in descending
order. -/
def c9reg : Registry :=
  [("b", ⟨"b.py", none, none, [], "service", false, "manual", 0, false⟩),
   ("a", ⟨"a.py", none, none, [], "service", false, "manual", 0, false⟩)]

/-- An `always`-policy component spec. -/
def alwSpec : ComponentSpec :=
  ⟨"alw.py", none, none, [], "service", false, "always", 0, false⟩

/-- A critical `manual`-policy component spec. -/
def manSpec : ComponentSpec :=
  ⟨"man.py", none, none, [], "service", true, "manual", 0, false⟩

/-- Registry with the `always` component and the critical `manual` one. -/
def c10reg : Registry := [("alw", alwSpec), ("man", manSpec)]

/-- A world in which every running process has died (all probes unhealthy)
but restarting works. -/
def c10env : Env :=
  ⟨fun _ => true, fun _ => true, fun _ => false, fun _ => true, fun _ => true,
   fun _ => TermOutcome.graceful⟩

/-- Both components running, about to be probed. -/
def c10st : OrchState :=
  ⟨[("alw", ⟨0, 0, alwSpec⟩), ("man", ⟨1, 0, manSpec⟩)], true, 2⟩

/-- What membership of the monitor loop's `failed_components` list certifies
about a component, relative to the state the iteration started from: it is
running, its probe is unhealthy, its policy is not `always`, and if its policy
is `on_failure` its restart counter has reached the ceiling of 3. -/
def monitorFailedWitness (env : Env) (st : OrchState) (n : String) : Prop :=
  ∃ inst, dictLookup st.processes n = some inst ∧
    check_component_health env st n = false ∧
    inst.component_info.restart_policy ≠ "always" ∧
    (inst.component_info.restart_policy = "on_failure" → 3 ≤ inst.restart_count)

/-- The startup order invariant: relative to a universe `U` of non-excluded
components, every already-ordered component has each of its `U`-dependencies
placed strictly before it. -/
def DepsBefore (reg : Registry) (U ordered : List String) : Prop :=
  ∀ n ∈ ordered, ∀ d ∈ depsOf reg n, d ∈ U →
    d ∈ ordered ∧ idx d ordered < idx n ordered

/-! Basic lemmas about the dictionary and list helpers. -/

theorem memb_iff {x : String} : ∀ {l : List String}, memb x l = true ↔ x ∈ l
  | [] => by simp [memb]
  | y :: ys => by
    by_cases h : y = x
    · subst h; simp [memb]
    · simp only [memb, if_neg h, List.mem_cons]
      rw [memb_iff]
      constructor
      · exact Or.inr
      · rintro (rfl | hm)
        · exact absurd rfl h
        · exact hm

theorem memb_eq_false_iff {x : String} {l : List String} :
    memb x l = false ↔ x ∉ l := by
  rw [← memb_iff]; cases memb x l <;> simp

theorem dictLookup_isSome_iff {α : Type} {k : String} :
    ∀ {l : List (String × α)}, (dictLookup l k).isSome = true ↔ k ∈ l.map Prod.fst
  | [] => by simp [dictLookup]
  | (a, v) :: rest => by
    by_cases h : a = k
    · subst h; simp [dictLookup]
    · simp only [dictLookup, if_neg h, List.map_cons, List.mem_cons]
      rw [dictLookup_isSome_iff]
      constructor
      · exact Or.inr
      · rintro (rfl | hm)
        · exact absurd rfl h
        · exact hm

theorem dictLookup_eq_none_iff {α : Type} {k : String} {l : List (String × α)} :
    dictLookup l k = none ↔ k ∉ l.map Prod.fst := by
  rw [← dictLookup_isSome_iff]
  cases dictLookup l k <;> simp

theorem dictLookup_mem {α : Type} {k : String} {v : α} :
    ∀ {l : List (String × α)}, dictLookup l k = some v → (k, v) ∈ l
  | [], h => by simp [dictLookup] at h
  | (a, w) :: rest, h => by
    by_cases ha : a = k
    · subst ha
      rw [dictLookup, if_pos rfl] at h
      cases h
      exact List.mem_cons_self _ _
    · simp only [dictLookup, if_neg ha] at h
      exact List.mem_cons_of_mem _ (dictLookup_mem h)

theorem dictInsert_lookup_ne {α : Type} {k n : String} (h : n ≠ k) (v : α) :
    ∀ {l : List (String × α)}, dictLookup (dictInsert l k v) n = dictLookup l n
  | [] => by simp [dictInsert, dictLookup, Ne.symm h]
  | (a, w) :: rest => by
    by_cases ha : a = k
    · subst ha
      have : a ≠ n := fun e => h (e.symm)
      simp [dictInsert, dictLookup, this]
    · simp only [dictInsert, if_neg ha, dictLookup]
      by_cases han : a = n
      · simp [han]
      · simp only [if_neg han]
        exact dictInsert_lookup_ne h v

theorem dictErase_lookup_ne {α : Type} {k n : String} (h : n ≠ k) :
    ∀ {l : List (String × α)}, dictLookup (dictErase l k) n = dictLookup l n
  | [] => by simp [dictErase]
  | (a, w) :: rest => by
    by_cases ha : a = k
    · subst ha
      have : a ≠ n := fun e => h e.symm
      simp [dictErase, dictLookup, this]
    · simp only [dictErase, if_neg ha, dictLookup]
      by_cases han : a = n
      · simp [han]
      · simp only [if_neg han]
        exact dictErase_lookup_ne h

theorem dictInsert_of_lookup_none {α : Type} {k : String} {v : α} :
    ∀ {l : List (String × α)}, dictLookup l k = none → dictInsert l k v = l ++ [(k, v)]
  | [], _ => rfl
  | (a, w) :: rest, h => by
    by_cases ha : a = k
    · subst ha; simp [dictLookup] at h
    · simp only [dictLookup, if_neg ha] at h
      simp [dictInsert, if_neg ha, dictInsert_of_lookup_none h]

theorem idx_append_left {a : String} :
    ∀ {l₁ : List String} (l₂ : List String), a ∈ l₁ → idx a (l₁ ++ l₂) = idx a l₁
  | [], _, h => by simp at h
  | x :: xs, l₂, h => by
    by_cases hx : x = a
    · simp [idx, hx]
    · have : a ∈ xs := by
        rcases List.mem_cons.mp h with rfl | hm
        · exact absurd rfl hx
        · exact hm
      simp [idx, hx, idx_append_left l₂ this]

theorem idx_append_right {a : String} :
    ∀ {l₁ : List String} (l₂ : List String), a ∉ l₁ →
      idx a (l₁ ++ l₂) = l₁.length + idx a l₂
  | [], _, _ => by simp
  | x :: xs, l₂, h => by
    have hx : x ≠ a := fun e => h (by simp [e])
    have : a ∉ xs := fun hm => h (List.mem_cons_of_mem _ hm)
    simp [idx, hx, idx_append_right l₂ this, List.length_cons]
    omega

theorem idx_lt_length {a : String} :
    ∀ {l : List String}, a ∈ l → idx a l < l.length
  | [], h => by simp at h
  | x :: xs, h => by
    by_cases hx : x = a
    · simp [idx, hx]
    · have : a ∈ xs := by
        rcases List.mem_cons.mp h with rfl | hm
        · exact absurd rfl hx
        · exact hm
      simp only [idx, if_neg hx, List.length_cons]
      exact Nat.succ_lt_succ (idx_lt_length this)

/-! Lemmas about the stable delay sort. -/

theorem insertDelay_perm (reg : Registry) (x : String) :
    ∀ (l : List String), List.Perm (insertDelay reg x l) (x :: l)
  | [] => List.Perm.refl _
  | y :: ys => by
    by_cases h : delayOf reg y < delayOf reg x
    · simp only [insertDelay, if_pos h]
      exact ((insertDelay_perm reg x ys).cons y).trans (List.Perm.swap x y ys)
    · simp only [insertDelay, if_neg h]
      exact List.Perm.refl _

theorem sortDelay_perm (reg : Registry) :
    ∀ (l : List String), List.Perm (sortDelay reg l) l
  | [] => List.Perm.refl _
  | x :: xs =>
    (insertDelay_perm reg x (sortDelay reg xs)).trans ((sortDelay_perm reg xs).cons x)

theorem mem_sortDelay {reg : Registry} {x : String} {l : List String} :
    x ∈ sortDelay reg l ↔ x ∈ l :=
  (sortDelay_perm reg l).mem_iff

/-! Lemmas about the resolver loop. -/

/-- One pass of the loop only reshuffles: order-so-far plus the sorted ready
batch plus the pruned remaining set is a permutation of order-so-far plus the
old remaining set. -/
theorem step_perm (reg : Registry) (ordered remaining : List String) :
    List.Perm
      ((ordered ++ sortDelay reg (readyOf reg ordered remaining)) ++
        (remaining.filter fun n =>
          !(memb n (sortDelay reg (readyOf reg ordered remaining)))))
      (ordered ++ remaining) := by
  rw [List.append_assoc]
  refine List.Perm.append_left ordered ?_
  have hfil :
      (remaining.filter fun n =>
        !(memb n (sortDelay reg (readyOf reg ordered remaining)))) =
      remaining.filter fun n =>
        !((depsOf reg n).all fun d => memb d ordered || !(memb d remaining)) := by
    apply List.filter_congr
    intro x hx
    have : memb x (sortDelay reg (readyOf reg ordered remaining)) =
        ((depsOf reg x).all fun d => memb d ordered || !(memb d remaining)) := by
      by_cases hp : ((depsOf reg x).all fun d => memb d ordered || !(memb d remaining)) = true
      · rw [hp]
        exact memb_iff.mpr (mem_sortDelay.mpr (List.mem_filter.mpr ⟨hx, hp⟩))
      · have hp' := Bool.not_eq_true _ |>.mp hp
        rw [hp']
        apply memb_eq_false_iff.mpr
        intro hmem
        exact hp (List.mem_filter.mp (mem_sortDelay.mp hmem)).2
    rw [this]
  rw [hfil]
  exact (List.Perm.append_right _ (sortDelay_perm reg _)).trans
    (List.filter_append_perm _ remaining)

/-- Whatever happens, the two halves of the loop's result are a permutation of
the two halves of its input. -/
theorem startupLoop_perm (reg : Registry) :
    ∀ (fuel : Nat) (ordered remaining : List String),
      List.Perm
        ((startupLoop reg fuel ordered remaining).1 ++
          (startupLoop reg fuel ordered remaining).2)
        (ordered ++ remaining)
  | 0, _, _ => List.Perm.refl _
  | fuel + 1, ordered, remaining => by
    by_cases hr : remaining = []
    · simp [startupLoop, hr]
    · by_cases hready : readyOf reg ordered remaining = []
      · simp [startupLoop, hr, hready]
      · simp only [startupLoop, if_neg hr, if_neg hready]
        exact (startupLoop_perm reg fuel _ _).trans (step_perm reg ordered remaining)

/-- The loop only ever appends to the order built so far. -/
theorem startupLoop_extends (reg : Registry) :
    ∀ (fuel : Nat) (ordered remaining : List String),
      ∃ t, (startupLoop reg fuel ordered remaining).1 = ordered ++ t
  | 0, ordered, _ => ⟨[], (List.append_nil ordered).symm⟩
  | fuel + 1, ordered, remaining => by
    by_cases hr : remaining = []
    · exact ⟨[], by simp [startupLoop, hr]⟩
    · by_cases hready : readyOf reg ordered remaining = []
      · exact ⟨[], by simp [startupLoop, hr, hready]⟩
      · simp only [startupLoop, if_neg hr, if_neg hready]
        obtain ⟨t, ht⟩ := startupLoop_extends reg fuel
          (ordered ++ sortDelay reg (readyOf reg ordered remaining))
          (remaining.filter fun n =>
            !(memb n (sortDelay reg (readyOf reg ordered remaining))))
        exact ⟨sortDelay reg (readyOf reg ordered remaining) ++ t, by
          rw [ht, List.append_assoc]⟩

theorem DepsBefore_append {reg : Registry} {U ordered batch : List String}
    (hnd : (ordered ++ batch).Nodup)
    (hDB : DepsBefore reg U ordered)
    (hbatch : ∀ n ∈ batch, ∀ d ∈ depsOf reg n, d ∈ U → d ∈ ordered) :
    DepsBefore reg U (ordered ++ batch) := by
  intro n hn d hd hdU
  rcases List.mem_append.mp hn with hno | hnb
  · obtain ⟨hdo, hlt⟩ := hDB n hno d hd hdU
    refine ⟨List.mem_append.mpr (Or.inl hdo), ?_⟩
    rw [idx_append_left _ hdo, idx_append_left _ hno]
    exact hlt
  · have hdo := hbatch n hnb d hd hdU
    have hnotin : n ∉ ordered := fun h =>
      (List.disjoint_of_nodup_append hnd) h hnb
    refine ⟨List.mem_append.mpr (Or.inl hdo), ?_⟩
    rw [idx_append_left _ hdo, idx_append_right _ hnotin]
    exact Nat.lt_of_lt_of_le (idx_lt_length hdo) (Nat.le_add_right _ _)

/-- Every element of the loop's `ready` batch has each of its `U`-dependencies
already in `ordered` (given that ordered-plus-remaining covers `U`). -/
theorem ready_deps_ordered {reg : Registry} {U ordered remaining : List String}
    (hU : ∀ x, x ∈ ordered ++ remaining ↔ x ∈ U) :
    ∀ n ∈ sortDelay reg (readyOf reg ordered remaining),
      ∀ d ∈ depsOf reg n, d ∈ U → d ∈ ordered := by
  intro n hn d hd hdU
  have hn' := List.mem_filter.mp (mem_sortDelay.mp hn)
  have hall := List.all_eq_true.mp hn'.2 d hd
  rcases Bool.or_eq_true_iff.mp hall with h | h
  · exact memb_iff.mp h
  · have hdr : d ∉ remaining := memb_eq_false_iff.mp (by
      cases hmr : memb d remaining
      · rfl
      · rw [hmr] at h; simp at h)
    rcases List.mem_append.mp ((hU d).mpr hdU) with h' | h'
    · exact h'
    · exact absurd h' hdr

/-- The loop preserves the deps-before invariant; in particular the final
order satisfies it. -/
theorem startupLoop_DB (reg : Registry) (U : List String) :
    ∀ (fuel : Nat) (ordered remaining : List String),
      (∀ x, x ∈ ordered ++ remaining ↔ x ∈ U) →
      (ordered ++ remaining).Nodup →
      DepsBefore reg U ordered →
      DepsBefore reg U (startupLoop reg fuel ordered remaining).1
  | 0, ordered, remaining, _, _, hDB => hDB
  | fuel + 1, ordered, remaining, hU, hnd, hDB => by
    by_cases hr : remaining = []
    · simpa [startupLoop, hr] using hDB
    · by_cases hready : readyOf reg ordered remaining = []
      · simpa [startupLoop, hr, hready] using hDB
      · simp only [startupLoop, if_neg hr, if_neg hready]
        have hperm := step_perm reg ordered remaining
        have hnd' := hperm.nodup_iff.mpr hnd
        have hU' : ∀ x,
            x ∈ (ordered ++ sortDelay reg (readyOf reg ordered remaining)) ++
              (remaining.filter fun n =>
                !(memb n (sortDelay reg (readyOf reg ordered remaining)))) ↔
            x ∈ U := fun x => (hperm.mem_iff).trans (hU x)
        refine startupLoop_DB reg U fuel _ _ hU' hnd' ?_
        exact DepsBefore_append (List.Nodup.of_append_left (by
            rwa [List.append_assoc] at hnd'))
          hDB (ready_deps_ordered hU)

/-- Pigeonhole: on a finite nonempty set in which every element has an
`E`-successor inside the set, `E` has a cycle. -/
theorem exists_transGen_self {E : String → String → Prop} (S : List String)
    (hne : S ≠ []) (hsucc : ∀ n ∈ S, ∃ d, d ∈ S ∧ E n d) :
    ∃ n, Relation.TransGen E n n := by
  classical
  obtain ⟨n₀, hn₀⟩ := List.exists_mem_of_ne_nil S hne
  let g : String → String := fun n => if h : ∃ d, d ∈ S ∧ E n d then h.choose else n₀
  have hg : ∀ n ∈ S, g n ∈ S ∧ E n (g n) := by
    intro n hn
    have h := hsucc n hn
    show (if h : ∃ d, d ∈ S ∧ E n d then h.choose else n₀) ∈ S ∧
      E n (if h : ∃ d, d ∈ S ∧ E n d then h.choose else n₀)
    rw [dif_pos h]
    exact ⟨h.choose_spec.1, h.choose_spec.2⟩
  have hseqS : ∀ k, g^[k] n₀ ∈ S := by
    intro k
    induction k with
    | zero => exact hn₀
    | succ k ih =>
      rw [Function.iterate_succ_apply']
      exact (hg _ ih).1
  have hseqE : ∀ k, E (g^[k] n₀) (g^[k + 1] n₀) := by
    intro k
    rw [Function.iterate_succ_apply']
    exact (hg _ (hseqS k)).2
  have hchain : ∀ i j, i < j → Relation.TransGen E (g^[i] n₀) (g^[j] n₀) := by
    intro i j hij
    induction j with
    | zero => omega
    | succ j ih =>
      rcases Nat.lt_succ_iff_lt_or_eq.mp hij with h | h
      · exact (ih h).tail (hseqE j)
      · subst h
        exact Relation.TransGen.single (hseqE i)
  have hcard : S.toFinset.card < (Finset.range (S.length + 1)).card := by
    rw [Finset.card_range]
    exact Nat.lt_succ_of_le S.toFinset_card_le
  have hmaps : ∀ k ∈ Finset.range (S.length + 1), g^[k] n₀ ∈ S.toFinset :=
    fun k _ => List.mem_toFinset.mpr (hseqS k)
  obtain ⟨i, _, j, _, hij, heq⟩ :=
    Finset.exists_ne_map_eq_of_card_lt_of_maps_to hcard hmaps
  rcases Nat.lt_or_ge i j with h | h
  · exact ⟨g^[i] n₀, heq ▸ hchain i j h⟩
  · have h' : j < i := Nat.lt_of_le_of_ne h (Ne.symm hij)
    exact ⟨g^[j] n₀, heq ▸ hchain j i h'⟩

theorem length_filter_lt {p : String → Bool} :
    ∀ {l : List String}, (∃ a ∈ l, p a = false) →
      (l.filter p).length < l.length
  | [], h => by simp at h
  | x :: xs, h => by
    by_cases hx : p x
    · obtain ⟨a, ha, hpa⟩ := h
      have ha' : a ∈ xs := by
        rcases List.mem_cons.mp ha with rfl | hm
        · rw [hx] at hpa; cases hpa
        · exact hm
      simp only [List.filter_cons, hx, List.length_cons]
      exact Nat.succ_lt_succ (length_filter_lt ⟨a, ha', hpa⟩)
    · simp only [List.filter_cons, Bool.not_eq_true _ |>.mp hx, List.length_cons]
      exact Nat.lt_succ_of_le (List.length_filter_le p xs)

/-- If each of some universe `U`'s dependency edges is acyclic, the loop never
gets stuck: given enough fuel everything gets ordered. -/
theorem startupLoop_complete (reg : Registry) (U : List String)
    (E : String → String → Prop)
    (hE : ∀ n d, n ∈ U → d ∈ U → d ∈ depsOf reg n → E n d)
    (hacyc : ∀ n, ¬ Relation.TransGen E n n) :
    ∀ (fuel : Nat) (ordered remaining : List String),
      remaining.length ≤ fuel →
      (∀ x, x ∈ ordered ++ remaining ↔ x ∈ U) →
      (startupLoop reg fuel ordered remaining).2 = []
  | 0, ordered, remaining, hlen, _ => by
    have : remaining = [] := List.length_eq_zero.mp (Nat.le_zero.mp hlen)
    simp [startupLoop, this]
  | fuel + 1, ordered, remaining, hlen, hU => by
    by_cases hr : remaining = []
    · simp [startupLoop, hr]
    · by_cases hready : readyOf reg ordered remaining = []
      · exfalso
        have hsucc : ∀ n ∈ remaining, ∃ d, d ∈ remaining ∧ E n d := by
          intro n hn
          have hnp := List.filter_eq_nil_iff.mp hready n hn
          have hnp' : ¬ ((depsOf reg n).all fun d =>
              memb d ordered || !(memb d remaining)) = true := hnp
          have hex : ∃ d ∈ depsOf reg n,
              (memb d ordered || !(memb d remaining)) = false := by
            by_contra hall
            push_neg at hall
            exact hnp' (List.all_eq_true.mpr fun d hd => by
              cases h : (memb d ordered || !(memb d remaining))
              · exact absurd h (hall d hd)
              · rfl)
          obtain ⟨d, hd, hdp⟩ := hex
          have hdo : memb d ordered = false := by
            cases hmo : memb d ordered
            · rfl
            · rw [hmo] at hdp; simp at hdp
          have hdr : memb d remaining = true := by
            cases hmr : memb d remaining
            · rw [hmr] at hdp; simp at hdp
            · rfl
          have hdrm := memb_iff.mp hdr
          refine ⟨d, hdrm, hE n d ?_ ?_ hd⟩
          · exact (hU n).mp (List.mem_append.mpr (Or.inr hn))
          · exact (hU d).mp (List.mem_append.mpr (Or.inr hdrm))
        obtain ⟨n, hcyc⟩ := exists_transGen_self remaining hr hsucc
        exact hacyc n hcyc
      · simp only [startupLoop, if_neg hr, if_neg hready]
        have hperm := step_perm reg ordered remaining
        have hU' : ∀ x,
            x ∈ (ordered ++ sortDelay reg (readyOf reg ordered remaining)) ++
              (remaining.filter fun n =>
                !(memb n (sortDelay reg (readyOf reg ordered remaining)))) ↔
            x ∈ U := fun x => (hperm.mem_iff).trans (hU x)
        have hlen' : (remaining.filter fun n =>
            !(memb n (sortDelay reg (readyOf reg ordered remaining)))).length ≤ fuel := by
          obtain ⟨a, ha⟩ := List.exists_mem_of_ne_nil _ hready
          have haR : a ∈ remaining := (List.mem_filter.mp ha).1
          have hamem : memb a (sortDelay reg (readyOf reg ordered remaining)) = true :=
            memb_iff.mpr (mem_sortDelay.mpr ha)
          have : (remaining.filter fun n =>
              !(memb n (sortDelay reg (readyOf reg ordered remaining)))).length <
              remaining.length :=
            length_filter_lt ⟨a, haR, by rw [hamem]; rfl⟩
          omega
        exact startupLoop_complete reg U E hE hacyc fuel _ _ hlen' hU'

/-! Bridge lemmas between the resolver's working set and the registry view. -/

theorem isActive_mem_keys {env : Env} {reg : Registry} {n : String}
    (h : isActive env reg n = true) : n ∈ reg.map Prod.fst := by
  apply dictLookup_isSome_iff.mp
  cases hlk : dictLookup reg n
  · rw [isActive, hlk] at h; cases h
  · rfl

theorem mem_activeFilter_iff {env : Env} {reg : Registry} {enum : List String}
    (hmem : ∀ x, x ∈ enum ↔ x ∈ reg.map Prod.fst) (x : String) :
    x ∈ activeFilter env reg enum ↔ isActive env reg x = true := by
  rw [activeFilter, List.mem_filter]
  cases hlk : dictLookup reg x with
  | none =>
    constructor
    · rintro ⟨hxe, _⟩
      have := dictLookup_isSome_iff.mpr ((hmem x).mp hxe)
      rw [hlk] at this
      cases this
    · intro hact
      rw [isActive, hlk] at hact
      cases hact
  | some c =>
    have hkeys : x ∈ reg.map Prod.fst := dictLookup_isSome_iff.mp (by rw [hlk]; rfl)
    simp only [isActive, activeKeep, hlk]
    constructor
    · rintro ⟨_, hk⟩
      exact hk
    · intro hk
      exact ⟨(hmem x).mpr hkeys, hk⟩

/-- A rank function decreasing along edges rules out cycles. -/
theorem acyclic_of_rank {E : String → String → Prop} (rank : String → Nat)
    (hr : ∀ n d, E n d → rank d < rank n) : ∀ n, ¬ Relation.TransGen E n n := by
  have key : ∀ a b, Relation.TransGen E a b → rank b < rank a := by
    intro a b h
    induction h with
    | single h => exact hr _ _ h
    | tail _ h ih => exact Nat.lt_trans (hr _ _ h) ih
  exact fun n hn => Nat.lt_irrefl _ (key n n hn)

/-- C4: for every registry whose dependency graph over non-excluded components
is acyclic and whose every dependency (of a non-excluded component) names an
existing non-excluded component, the resolver terminates and returns an order
containing each non-excluded component exactly once, in which every component
appears strictly after all of its non-excluded dependencies.  `enum` is the
(duplicate-free) iteration order of the name set, covering exactly the
registry's keys. -/
theorem C4_resolver_topological_order (env : Env) (reg : Registry)
    (enum : List String)
    (he : enum.Nodup)
    (hmem : ∀ x, x ∈ enum ↔ x ∈ reg.map Prod.fst)
    (hdeps : ∀ n ∈ reg.map Prod.fst, isActive env reg n = true →
      ∀ d ∈ depsOf reg n, isActive env reg d = true)
    (hacyc : ∀ n, ¬ Relation.TransGen (depEdge env reg) n n) :
    (get_startup_order env reg enum).2 = [] ∧
    (get_startup_order env reg enum).1.Nodup ∧
    (∀ x, x ∈ (get_startup_order env reg enum).1 ↔ isActive env reg x = true) ∧
    (∀ n ∈ (get_startup_order env reg enum).1, ∀ d ∈ depsOf reg n,
      isActive env reg d = true →
        d ∈ (get_startup_order env reg enum).1 ∧
        idx d (get_startup_order env reg enum).1 <
          idx n (get_startup_order env reg enum).1) := by
  have hUnd : (activeFilter env reg enum).Nodup := he.filter _
  have hU0 : ∀ x, x ∈ ([] : List String) ++ activeFilter env reg enum ↔
      x ∈ activeFilter env reg enum := by simp
  have hres : get_startup_order env reg enum =
      startupLoop reg (activeFilter env reg enum).length []
        (activeFilter env reg enum) := rfl
  have hcomplete : (get_startup_order env reg enum).2 = [] := by
    rw [hres]
    exact startupLoop_complete reg (activeFilter env reg enum) (depEdge env reg)
      (fun n d hn hd hdep =>
        ⟨(mem_activeFilter_iff hmem n).mp hn, (mem_activeFilter_iff hmem d).mp hd,
          hdep⟩)
      hacyc _ [] _ (Nat.le_refl _) hU0
  have hperm : List.Perm
      ((get_startup_order env reg enum).1 ++ (get_startup_order env reg enum).2)
      (activeFilter env reg enum) := by
    rw [hres]
    simpa using startupLoop_perm reg (activeFilter env reg enum).length []
      (activeFilter env reg enum)
  have hO : List.Perm (get_startup_order env reg enum).1
      (activeFilter env reg enum) := by
    rw [hcomplete, List.append_nil] at hperm
    exact hperm
  have hDB : DepsBefore reg (activeFilter env reg enum)
      (get_startup_order env reg enum).1 := by
    rw [hres]
    exact startupLoop_DB reg _ _ [] _ hU0 (by simpa using hUnd)
      (fun m hm => absurd hm (List.not_mem_nil m))
  refine ⟨hcomplete, hO.nodup_iff.mpr hUnd,
    fun x => hO.mem_iff.trans (mem_activeFilter_iff hmem x), ?_⟩
  intro n hn d hd hdact
  exact hDB n hn d hd ((mem_activeFilter_iff hmem d).mpr hdact)

/-- C4 witness: on the concrete acyclic registry `regAcyclic`, the resolver
misses nothing and places `a` strictly before `c`, which depends on it. -/
theorem C4_resolver_topological_order_witness :
    (get_startup_order envOK regAcyclic (regAcyclic.map Prod.fst)).2 = [] ∧
    idx "a" (get_startup_order envOK regAcyclic (regAcyclic.map Prod.fst)).1 <
      idx "c" (get_startup_order envOK regAcyclic (regAcyclic.map Prod.fst)).1 := by
  have hrank : ∀ n d, depEdge envOK regAcyclic n d → rankABC d < rankABC n := by
    intro n d hEd
    obtain ⟨hn, hd, hdep⟩ := hEd
    have hn' := isActive_mem_keys hn
    have hd' := isActive_mem_keys hd
    simp only [regAcyclic, List.map_cons, List.map_nil, List.mem_cons,
      List.not_mem_nil, or_false] at hn' hd'
    rcases hn' with rfl | rfl | rfl <;> rcases hd' with rfl | rfl | rfl <;>
      first
        | decide
        | exact absurd hdep (by decide)
  have h := C4_resolver_topological_order envOK regAcyclic
    (regAcyclic.map Prod.fst) (by decide) (fun _ => Iff.rfl) (by decide)
    (acyclic_of_rank rankABC hrank)
  refine ⟨h.1, ?_⟩
  have hc : "c" ∈ (get_startup_order envOK regAcyclic
      (regAcyclic.map Prod.fst)).1 := (h.2.2.1 "c").mpr (by decide)
  exact (h.2.2.2 "c" hc "a" (by decide) (by decide)).2

/-- C3 (amended): when the non-excluded components contain a dependency cycle,
the resolver terminates with a nonempty unresolved set (the content of the
"Circular or missing dependencies detected" error log), and order plus
unresolved set still partition the non-excluded components — nothing is
retried, but nothing is raised either: the resolvable components are returned
as a partial order. -/
theorem C3_cycle_logged_with_unresolved_set (env : Env) (reg : Registry)
    (enum : List String)
    (he : enum.Nodup)
    (hmem : ∀ x, x ∈ enum ↔ x ∈ reg.map Prod.fst)
    (hcyc : ∃ n, Relation.TransGen (depEdge env reg) n n) :
    (get_startup_order env reg enum).2 ≠ [] ∧
    (∀ x, x ∈ (get_startup_order env reg enum).1 ++
        (get_startup_order env reg enum).2 ↔ isActive env reg x = true) ∧
    ((get_startup_order env reg enum).1 ++
        (get_startup_order env reg enum).2).Nodup := by
  have hUnd : (activeFilter env reg enum).Nodup := he.filter _
  have hres : get_startup_order env reg enum =
      startupLoop reg (activeFilter env reg enum).length []
        (activeFilter env reg enum) := rfl
  have hperm : List.Perm
      ((get_startup_order env reg enum).1 ++ (get_startup_order env reg enum).2)
      (activeFilter env reg enum) := by
    rw [hres]
    simpa using startupLoop_perm reg (activeFilter env reg enum).length []
      (activeFilter env reg enum)
  refine ⟨?_, fun x => hperm.mem_iff.trans (mem_activeFilter_iff hmem x),
    hperm.nodup_iff.mpr hUnd⟩
  intro hR
  obtain ⟨n, hn⟩ := hcyc
  have hO : List.Perm (get_startup_order env reg enum).1
      (activeFilter env reg enum) := by
    rw [hR, List.append_nil] at hperm
    exact hperm
  have hDB : DepsBefore reg (activeFilter env reg enum)
      (get_startup_order env reg enum).1 := by
    rw [hres]
    exact startupLoop_DB reg _ _ [] _ (by simp) (by simpa using hUnd)
      (fun m hm => absurd hm (List.not_mem_nil m))
  have hrank : ∀ a b, depEdge env reg a b →
      idx b (get_startup_order env reg enum).1 <
        idx a (get_startup_order env reg enum).1 := by
    intro a b hab
    obtain ⟨ha, hb, hdep⟩ := hab
    have haO : a ∈ (get_startup_order env reg enum).1 :=
      hO.mem_iff.mpr ((mem_activeFilter_iff hmem a).mpr ha)
    exact (hDB a haO b hdep ((mem_activeFilter_iff hmem b).mpr hb)).2
  exact (acyclic_of_rank _ hrank) n hn

/-- C3 witness: on the concrete registry `regCycle` (cycle `b ↔ c`), the
unresolved set is nonempty. -/
theorem C3_cycle_logged_with_unresolved_set_witness :
    (get_startup_order envOK regCycle (regCycle.map Prod.fst)).2 ≠ [] := by
  have hedge_bc : depEdge envOK regCycle "b" "c" := ⟨by decide, by decide, by decide⟩
  have hedge_cb : depEdge envOK regCycle "c" "b" := ⟨by decide, by decide, by decide⟩
  have h := C3_cycle_logged_with_unresolved_set envOK regCycle
    (regCycle.map Prod.fst) (by decide) (fun _ => Iff.rfl)
    ⟨"b", Relation.TransGen.head hedge_bc (Relation.TransGen.single hedge_cb)⟩
  exact h.1

/-- C3 counterexample: a dependency naming a component absent from the
registry (`b` needs `ghost`) raises no scheduling error at all — the
unresolved set is empty, `b` is placed in the order, and `start_all` proceeds
to attempt it, refuting "raises a fatal scheduling error ... and startup does
not proceed". -/
theorem C3_missing_dep_no_error_counterexample :
    (get_startup_order envOK regMissing ["b"]).2 = [] ∧
    (get_startup_order envOK regMissing ["b"]).1 = ["b"] ∧
    (start_all envOK regMissing ["b"] st0).2.2.2 = ["b"] := by decide

/-! Sortedness and stability of the delay sort (claim C9). -/

theorem insertDelay_pairwise {reg : Registry} {x : String} :
    ∀ {l : List String},
      List.Pairwise (fun a b => delayOf reg a ≤ delayOf reg b) l →
      List.Pairwise (fun a b => delayOf reg a ≤ delayOf reg b) (insertDelay reg x l)
  | [], _ => List.pairwise_cons.mpr ⟨fun b hb => absurd hb (List.not_mem_nil b),
      List.Pairwise.nil⟩
  | y :: ys, h => by
    obtain ⟨hy, hys⟩ := List.pairwise_cons.mp h
    by_cases hlt : delayOf reg y < delayOf reg x
    · simp only [insertDelay, if_pos hlt]
      refine List.pairwise_cons.mpr ⟨?_, insertDelay_pairwise hys⟩
      intro b hb
      rcases List.mem_cons.mp ((insertDelay_perm reg x ys).mem_iff.mp hb) with
        rfl | hbys
      · exact Nat.le_of_lt hlt
      · exact hy b hbys
    · simp only [insertDelay, if_neg hlt]
      refine List.pairwise_cons.mpr ⟨?_, h⟩
      intro b hb
      have hxy : delayOf reg x ≤ delayOf reg y := Nat.le_of_not_lt hlt
      rcases List.mem_cons.mp hb with rfl | hbys
      · exact hxy
      · exact Nat.le_trans hxy (hy b hbys)

theorem sortDelay_pairwise (reg : Registry) :
    ∀ (l : List String),
      List.Pairwise (fun a b => delayOf reg a ≤ delayOf reg b) (sortDelay reg l)
  | [] => List.Pairwise.nil
  | x :: xs => insertDelay_pairwise (sortDelay_pairwise reg xs)

theorem insertDelay_filter_ne {reg : Registry} {x : String} {d : Nat}
    (hx : (delayOf reg x == d) = false) :
    ∀ {l : List String},
      (insertDelay reg x l).filter (fun n => delayOf reg n == d) =
        l.filter (fun n => delayOf reg n == d)
  | [] => by simp [insertDelay, List.filter_cons, hx]
  | y :: ys => by
    by_cases hlt : delayOf reg y < delayOf reg x
    · simp only [insertDelay, if_pos hlt, List.filter_cons]
      rw [insertDelay_filter_ne hx]
    · simp [insertDelay, if_neg hlt, List.filter_cons, hx]

theorem insertDelay_filter_eq {reg : Registry} {x : String} {d : Nat}
    (hx : (delayOf reg x == d) = true) :
    ∀ {l : List String},
      (insertDelay reg x l).filter (fun n => delayOf reg n == d) =
        x :: l.filter (fun n => delayOf reg n == d)
  | [] => by simp [insertDelay, List.filter_cons, hx]
  | y :: ys => by
    by_cases hlt : delayOf reg y < delayOf reg x
    · have hxd : delayOf reg x = d := eq_of_beq hx
      have hy : (delayOf reg y == d) = false :=
        beq_eq_false_iff_ne.mpr (by omega)
      simp only [insertDelay, if_pos hlt]
      simp [List.filter_cons, hy]
      exact insertDelay_filter_eq hx
    · simp [insertDelay, if_neg hlt, List.filter_cons, hx]

theorem sortDelay_filter (reg : Registry) (d : Nat) :
    ∀ (l : List String),
      (sortDelay reg l).filter (fun n => delayOf reg n == d) =
        l.filter (fun n => delayOf reg n == d)
  | [] => rfl
  | x :: xs => by
    cases hx : (delayOf reg x == d) with
    | true =>
      simp only [sortDelay]
      rw [insertDelay_filter_eq hx, sortDelay_filter reg d xs]
      simp [List.filter_cons, hx]
    | false =>
      simp only [sortDelay]
      rw [insertDelay_filter_ne hx, sortDelay_filter reg d xs]
      simp [List.filter_cons, hx]

/-- C9 (amended): within each resolver iteration the eligible batch is sorted
by ascending startup delay, but equal delays keep the iteration order of the
Python `set` of remaining names (not ascending name order): the sort is a
stable permutation, so the output is deterministic only given that set
enumeration order, not as a function of the registry alone. -/
theorem C9_batch_delay_sorted_stable (reg : Registry) (l : List String) :
    List.Perm (sortDelay reg l) l ∧
    List.Pairwise (fun a b => delayOf reg a ≤ delayOf reg b) (sortDelay reg l) ∧
    (∀ d : Nat, (sortDelay reg l).filter (fun n => delayOf reg n == d) =
      l.filter (fun n => delayOf reg n == d)) :=
  ⟨sortDelay_perm reg l, sortDelay_pairwise reg l, fun d => sortDelay_filter reg d l⟩

/-- C9 counterexample: `c9reg` declares `b` and `a` with equal startup delay.
Under the set enumeration order `["b", "a"]` the resolver emits `b` before `a`
(not ascending name order), and under `["a", "b"]` it emits the opposite order
— both enumeration orders are possible CPython set iteration orders for the
same registry, so the output is not a deterministic function of the registry
alone and ties are not broken by name. -/
theorem C9_name_tiebreak_counterexample :
    (get_startup_order envOK c9reg ["b", "a"]).1 = ["b", "a"] ∧
    (get_startup_order envOK c9reg ["a", "b"]).1 = ["a", "b"] := by decide

/-- C5 (amended): an optional component `opt` with a missing launch target is
removed from the resolver's plan entirely and treated as satisfied there (a
component whose only dependency is `opt` still gets ordered); but
`check_component_dependencies` still requires every declared dependency to be
a key of the running map, so `start_component` of a present, non-optional
component that depends on `opt` fails while `opt` is not running — the
exclusion does not extend to the supervisor's per-start dependency check. -/
theorem C5_optional_excluded_but_start_checks (env : Env) (reg : Registry)
    (enum : List String) (st : OrchState) (opt : String) (copt : ComponentSpec)
    (hlk : dictLookup reg opt = some copt)
    (hopt : copt.optional = true)
    (hmiss : env.scriptExists copt.script = false) :
    (opt ∉ (get_startup_order env reg enum).1 ∧
     opt ∉ (get_startup_order env reg enum).2) ∧
    (∀ n, n ∈ activeFilter env reg enum → (∀ d ∈ depsOf reg n, d = opt) →
      n ∈ (get_startup_order env reg enum).1) ∧
    (∀ b cb, dictLookup reg b = some cb → opt ∈ cb.dependencies →
      env.scriptExists cb.script = true →
      dictLookup st.processes b = none →
      dictLookup st.processes opt = none →
      start_component env reg st b = (false, st)) := by
  have hkeep : activeKeep env reg opt = false := by
    simp [activeKeep, hlk, hopt, hmiss]
  have hoptU : opt ∉ activeFilter env reg enum := fun h => by
    have := (List.mem_filter.mp h).2
    rw [hkeep] at this
    cases this
  have hres : get_startup_order env reg enum =
      startupLoop reg (activeFilter env reg enum).length []
        (activeFilter env reg enum) := rfl
  have hperm : List.Perm
      ((get_startup_order env reg enum).1 ++ (get_startup_order env reg enum).2)
      (activeFilter env reg enum) := by
    rw [hres]
    simpa using startupLoop_perm reg (activeFilter env reg enum).length []
      (activeFilter env reg enum)
  refine ⟨⟨?_, ?_⟩, ?_, ?_⟩
  · intro h
    exact hoptU (hperm.mem_iff.mp (List.mem_append.mpr (Or.inl h)))
  · intro h
    exact hoptU (hperm.mem_iff.mp (List.mem_append.mpr (Or.inr h)))
  · intro n hnU hdeps
    rw [hres]
    obtain ⟨k, hk⟩ : ∃ k, (activeFilter env reg enum).length = k + 1 := by
      cases hl : (activeFilter env reg enum).length with
      | zero =>
        rw [List.length_eq_zero] at hl
        rw [hl] at hnU
        cases hnU
      | succ k => exact ⟨k, rfl⟩
    rw [hk]
    have hUne : activeFilter env reg enum ≠ [] := by
      intro h
      rw [h] at hnU
      cases hnU
    have hnready : n ∈ readyOf reg [] (activeFilter env reg enum) := by
      refine List.mem_filter.mpr ⟨hnU, List.all_eq_true.mpr ?_⟩
      intro d hd
      have hde := hdeps d hd
      subst hde
      simp [memb, memb_eq_false_iff.mpr hoptU]
    have hreadyne : readyOf reg [] (activeFilter env reg enum) ≠ [] := by
      intro h
      rw [h] at hnready
      cases hnready
    simp only [startupLoop, if_neg hUne, if_neg hreadyne]
    obtain ⟨t, ht⟩ := startupLoop_extends reg k
      ([] ++ sortDelay reg (readyOf reg [] (activeFilter env reg enum)))
      ((activeFilter env reg enum).filter fun m =>
        !(memb m (sortDelay reg (readyOf reg [] (activeFilter env reg enum)))))
    rw [ht]
    refine List.mem_append.mpr (Or.inl ?_)
    simpa using mem_sortDelay.mpr hnready
  · intro b cb hb hdep hscript hbnone hoptnone
    have hchk : check_component_dependencies env reg st b = false := by
      rw [check_component_dependencies]
      have hdeps_b : depsOf reg b = cb.dependencies := by simp [depsOf, hb]
      rw [hdeps_b]
      cases hall : cb.dependencies.all fun dep =>
          match dictLookup st.processes dep with
          | none => false
          | some _ => env.alive dep
      · rfl
      · exfalso
        have := List.all_eq_true.mp hall opt hdep
        rw [hoptnone] at this
        cases this
    simp [start_component, hbnone, hb, hscript, hchk]

/-- C5 counterexample: in `c5reg`, `opt` is optional with a missing script and
`b` depends on it.  The plan excludes `opt` and schedules `b` without error,
yet `start_component` of `b` fails (returns `False`, state unchanged) because
the per-start dependency check still requires `opt` to be in the running map —
refuting "starting any component that depends on it neither checks it nor
fails ... because of it". -/
theorem C5_dependent_start_fails_counterexample :
    (get_startup_order c5env c5reg ["opt", "b"]).1 = ["b"] ∧
    (get_startup_order c5env c5reg ["opt", "b"]).2 = [] ∧
    start_component c5env c5reg st0 "b" = (false, st0) := by decide

/-- C5 witness: the amended statement instantiated on `c5reg`. -/
theorem C5_optional_excluded_but_start_checks_witness :
    ("opt" ∉ (get_startup_order c5env c5reg ["opt", "b"]).1) ∧
    ("b" ∈ (get_startup_order c5env c5reg ["opt", "b"]).1) ∧
    start_component c5env c5reg st0 "b" = (false, st0) := by
  have h := C5_optional_excluded_but_start_checks c5env c5reg ["opt", "b"] st0
    "opt" ⟨"missing.py", none, none, [], "service", false, "manual", 0, true⟩
    (by decide) (by decide) (by decide)
  refine ⟨h.1.1, ?_, ?_⟩
  · exact h.2.1 "b" (by decide) (by decide)
  · exact h.2.2 "b" ⟨"b.py", none, none, ["opt"], "service", false, "manual", 0, false⟩
      (by decide) (by decide) (by decide) (by decide) (by decide)

/-- C6 (amended): `stop_component` removes the instance from the running map
and returns success on the graceful and force-kill paths, but on the path
where terminating or killing raises an error it returns failure with the
instance still in the map — the removal does not happen on every path. -/
theorem C6_stop_removes_except_on_error (env : Env) (st : OrchState)
    (name : String) (h : (dictLookup st.processes name).isSome = true) :
    (env.termOutcome name ≠ TermOutcome.error →
      stop_component env st name =
        (true, ⟨dictErase st.processes name, st.running, st.clock⟩)) ∧
    (env.termOutcome name = TermOutcome.error →
      stop_component env st name = (false, st)) := by
  obtain ⟨inst, hinst⟩ := Option.isSome_iff_exists.mp h
  constructor
  · intro hne
    cases ht : env.termOutcome name with
    | error => exact absurd ht hne
    | graceful => simp [stop_component, hinst, ht]
    | forceKill => simp [stop_component, hinst, ht]
  · intro he
    simp [stop_component, hinst, he]

/-- C6 counterexample: with `c` running and `terminate()` raising,
`stop_component` returns `False` and `c` is still in the running map after it
returns — refuting "removes the component's instance from the running map
before returning on every path". -/
theorem C6_error_path_leaves_entry_counterexample :
    (stop_component envTermError c6st "c").1 = false ∧
    (dictLookup (stop_component envTermError c6st "c").2.processes "c").isSome
      = true := by decide

/-- C6 witness: the amended statement instantiated on `c6st` in both worlds. -/
theorem C6_stop_removes_except_on_error_witness :
    stop_component envOK c6st "c" = (true, ⟨[], true, 1⟩) ∧
    stop_component envTermError c6st "c" = (false, c6st) := by
  have h1 := C6_stop_removes_except_on_error envOK c6st "c" (by decide)
  have h2 := C6_stop_removes_except_on_error envTermError c6st "c" (by decide)
  exact ⟨(h1.1 (by decide)).trans (by decide), h2.2 rfl⟩

/-- Full characterisation of `start_component`: either the spawn-success case
(new instance appended with a zeroed restart counter), or the state comes back
unchanged (no-op success, optional skip, or any failure). -/
theorem start_component_spec (env : Env) (reg : Registry) (st : OrchState)
    (name : String) :
    (∃ comp, dictLookup st.processes name = none ∧
      dictLookup reg name = some comp ∧
      env.scriptExists comp.script = true ∧
      check_component_dependencies env reg st name = true ∧
      env.spawnOk name = true ∧
      start_component env reg st name =
        (true, ⟨dictInsert st.processes name ⟨st.clock, 0, comp⟩,
          st.running, st.clock + 1⟩)) ∨
    (start_component env reg st name).2 = st := by
  cases hp : dictLookup st.processes name with
  | some _ => right; simp [start_component, hp]
  | none =>
    cases hr : dictLookup reg name with
    | none => right; simp [start_component, hp, hr]
    | some comp =>
      cases hs : env.scriptExists comp.script with
      | false =>
        right
        cases ho : comp.optional <;> simp [start_component, hp, hr, hs, ho]
      | true =>
        cases hc : check_component_dependencies env reg st name with
        | false => right; simp [start_component, hp, hr, hs, hc]
        | true =>
          cases hw : env.spawnOk name with
          | false => right; simp [start_component, hp, hr, hs, hc, hw]
          | true =>
            left
            exact ⟨comp, rfl, rfl, hs, rfl, rfl,
              by simp [start_component, hp, hr, hs, hc, hw]⟩

/-- A failed start leaves the state untouched. -/
theorem start_component_fail_state (env : Env) (reg : Registry) (st : OrchState)
    (name : String) (h : (start_component env reg st name).1 = false) :
    (start_component env reg st name).2 = st := by
  rcases start_component_spec env reg st name with ⟨comp, _, _, _, _, _, heq⟩ | hst
  · rw [heq] at h
    cases h
  · exact hst

/-- Processing a prefix that falls through (no critical abort) composes with
processing the rest. -/
theorem start_all_go_append (env : Env) (reg : Registry) (l₂ : List String) :
    ∀ (l₁ : List String) (st : OrchState) (failed att : List String)
      (b : Bool) (st' : OrchState) (f' a' : List String),
      start_all_go env reg l₁ st failed att =
        (StartOutcome.completed b, st', f', a') →
      start_all_go env reg (l₁ ++ l₂) st failed att =
        start_all_go env reg l₂ st' f' a' := by
  intro l₁
  induction l₁ with
  | nil =>
    intro st failed att b st' f' a' hgo
    simp only [start_all_go] at hgo
    cases hgo
    simp
  | cons x xs ih =>
    intro st failed att b st' f' a' hgo
    simp only [start_all_go] at hgo ⊢
    cases hr1 : (start_component env reg st x).1 with
    | true =>
      simp only [hr1, if_true] at hgo ⊢
      exact ih _ _ _ _ _ _ _ hgo
    | false =>
      simp only [hr1, Bool.false_eq_true, if_false] at hgo ⊢
      cases hc : criticalOf reg x with
      | true =>
        simp only [hc, if_true] at hgo
        cases hgo
      | false =>
        simp only [hc, Bool.false_eq_true, if_false] at hgo ⊢
        exact ih _ _ _ _ _ _ _ hgo

/-- C7: during `start_all`, when the startup order reaches a critical
component that fails to start (the prefix before it having fallen through
normally), the loop returns overall failure immediately: the final state is
exactly the state after the prefix (components started earlier stay in the
running map, nothing is rolled back), the failed component is recorded, and no
component after it in the order is ever attempted (the attempted trace ends at
the critical component). -/
theorem C7_critical_failure_aborts_startup (env : Env) (reg : Registry)
    (enum : List String) (st : OrchState) (pre post : List String)
    (name : String) (b : Bool) (st' : OrchState) (f' a' : List String)
    (horder : (get_startup_order env reg enum).1 = pre ++ name :: post)
    (hpre : start_all_go env reg pre st [] [] =
      (StartOutcome.completed b, st', f', a'))
    (hfail : (start_component env reg st' name).1 = false)
    (hcrit : criticalOf reg name = true) :
    start_all env reg enum st = (false, st', f' ++ [name], a' ++ [name]) := by
  have hstate := start_component_fail_state env reg st' name hfail
  have happ := start_all_go_append env reg (name :: post) pre st [] [] b st' f' a' hpre
  rw [← horder] at happ
  simp only [start_all, happ, start_all_go, hfail, Bool.false_eq_true, if_false,
    hcrit, if_true, hstate]
  rfl

/-- C7 witness: in `c7reg`, `a` starts, then the critical `c` dies during its
startup delay; `start_all` reports failure, leaves `a` running untouched and
attempts nothing after `c`. -/
theorem C7_critical_failure_aborts_startup_witness :
    start_all c7env c7reg ["a", "c"] st0 =
      (false,
       ⟨[("a", ⟨0, 0, ⟨"a.py", none, none, [], "service", false, "manual", 0,
          false⟩⟩)], true, 1⟩,
       ["c"], ["a", "c"]) := by
  have h := C7_critical_failure_aborts_startup c7env c7reg ["a", "c"] st0
    ["a"] [] "c" true
    ⟨[("a", ⟨0, 0, ⟨"a.py", none, none, [], "service", false, "manual", 0,
      false⟩⟩)], true, 1⟩
    [] ["a"] (by decide) (by decide) (by decide) (by decide)
  exact h

/-- The shutdown fold records exactly the names it was given, in order,
whatever each individual `stop_component` returns. -/
theorem stop_fold_trace (env : Env) :
    ∀ (l : List String) (s : OrchState) (acc : List String),
      (l.foldl (fun acc n => ((stop_component env acc.1 n).2, acc.2 ++ [n]))
        (s, acc)).2 = acc ++ l := by
  intro l
  induction l with
  | nil => intro s acc; simp
  | cons x xs ih =>
    intro s acc
    simp only [List.foldl_cons]
    rw [ih]
    simp

/-- C8: `stop_all` invokes `stop_component` on exactly the reverse of the
running map's key sequence — and the key sequence is the actual start order,
because a (non-no-op) successful start appends its component at the end of the
map; a component that is not in the map (never started or already reaped)
does not appear in the shutdown sequence; and the sequence is the same in
every world, i.e. every running component is attempted even when stopping an
earlier one fails. -/
theorem C8_shutdown_reverse_of_start_order (env : Env) (st : OrchState) :
    (stop_all env st).2 = (st.processes.map Prod.fst).reverse ∧
    (∀ n, dictLookup st.processes n = none → n ∉ (stop_all env st).2) ∧
    (∀ (env' : Env) (reg : Registry) (st1 : OrchState) (n : String)
        (r : OrchState), dictLookup st1.processes n = none →
      start_component env' reg st1 n = (true, r) →
      r.processes.map Prod.fst = st1.processes.map Prod.fst ++ [n] ∨ r = st1) := by
  have htrace : (stop_all env st).2 = (st.processes.map Prod.fst).reverse := by
    rw [stop_all]
    rw [stop_fold_trace]
    simp
  refine ⟨htrace, ?_, ?_⟩
  · intro n hn
    rw [htrace]
    intro hmem
    exact absurd (List.mem_reverse.mp hmem) (dictLookup_eq_none_iff.mp hn)
  · intro env' reg st1 n r hnone hstart
    rcases start_component_spec env' reg st1 n with
      ⟨comp, _, _, _, _, _, heq⟩ | hst
    · left
      rw [hstart] at heq
      have hr : r = ⟨dictInsert st1.processes n ⟨st1.clock, 0, comp⟩,
          st1.running, st1.clock + 1⟩ := by
        have := congrArg Prod.snd heq
        simpa using this
      rw [hr]
      show (dictInsert st1.processes n ⟨st1.clock, 0, comp⟩).map Prod.fst = _
      rw [dictInsert_of_lookup_none hnone]
      simp
    · right
      have := congrArg Prod.snd hstart
      simp at this
      rw [← this, hst]

/-! Frame lemmas: supervisor operations on one component leave the entries of
other components untouched. -/

theorem stop_component_frame (env : Env) (st : OrchState) (name m : String)
    (hne : m ≠ name) :
    dictLookup (stop_component env st name).2.processes m =
      dictLookup st.processes m := by
  cases hp : dictLookup st.processes name with
  | none => simp [stop_component, hp]
  | some inst =>
    cases ht : env.termOutcome name <;>
      simp [stop_component, hp, ht, dictErase_lookup_ne hne]

theorem start_component_frame (env : Env) (reg : Registry) (st : OrchState)
    (name m : String) (hne : m ≠ name) :
    dictLookup (start_component env reg st name).2.processes m =
      dictLookup st.processes m := by
  rcases start_component_spec env reg st name with
    ⟨comp, _, _, _, _, _, heq⟩ | hst
  · have h2 : (start_component env reg st name).2 =
        ⟨dictInsert st.processes name ⟨st.clock, 0, comp⟩,
          st.running, st.clock + 1⟩ := by
      rw [heq]
    rw [h2]
    exact dictInsert_lookup_ne hne _
  · rw [hst]

theorem restart_component_frame (env : Env) (reg : Registry) (st : OrchState)
    (name m : String) (hne : m ≠ name) :
    dictLookup (restart_component env reg st name).processes m =
      dictLookup st.processes m := by
  cases hp : dictLookup st.processes name with
  | none =>
    simp only [restart_component, hp]
    rw [start_component_frame env reg _ name m hne,
      stop_component_frame env _ name m hne]
  | some inst =>
    simp only [restart_component, hp]
    rw [start_component_frame env reg _ name m hne,
      stop_component_frame env _ name m hne]
    exact dictInsert_lookup_ne hne _

/-- A component's health verdict depends only on its own map entry. -/
theorem check_component_health_congr (env : Env) {s₁ s₂ : OrchState}
    (name : String)
    (h : dictLookup s₁.processes name = dictLookup s₂.processes name) :
    check_component_health env s₁ name = check_component_health env s₂ name := by
  rw [check_component_health, check_component_health, h]

/-- Invariant of the monitor iteration's fold: every component in the
`failed_components` accumulator carries a `monitorFailedWitness` relative to
the iteration's initial state (provided the snapshot names are distinct and
the entries of yet-unprocessed names agree with the initial state). -/
theorem monitor_fold_failed (env : Env) (reg : Registry) (st0 : OrchState) :
    ∀ (names : List String) (s : OrchState) (failed restarted : List String),
      names.Nodup →
      (∀ n ∈ names, dictLookup s.processes n = dictLookup st0.processes n) →
      (∀ n ∈ failed, monitorFailedWitness env st0 n) →
      ∀ n ∈ (names.foldl (monitor_step env reg) (s, failed, restarted)).2.1,
        monitorFailedWitness env st0 n := by
  intro names
  induction names with
  | nil =>
    intro s failed restarted _ _ hfail
    simpa using hfail
  | cons m rest ih =>
    intro s failed restarted hnd hframe hfail
    obtain ⟨hm_rest, hnd'⟩ := List.nodup_cons.mp hnd
    have hframe_m : dictLookup s.processes m = dictLookup st0.processes m :=
      hframe m (List.mem_cons_self m rest)
    have hrest_ne : ∀ n ∈ rest, n ≠ m := fun n hn he => hm_rest (he ▸ hn)
    have hframe_restart : ∀ n ∈ rest,
        dictLookup (restart_component env reg s m).processes n =
          dictLookup st0.processes n := by
      intro n hn
      rw [restart_component_frame env reg s m n (hrest_ne n hn)]
      exact hframe n (List.mem_cons_of_mem m hn)
    simp only [List.foldl_cons]
    by_cases hh : check_component_health env s m = true
    · have hstep : monitor_step env reg (s, failed, restarted) m =
          (s, failed, restarted) := by
        simp [monitor_step, hh]
      rw [hstep]
      exact ih s failed restarted hnd'
        (fun n hn => hframe n (List.mem_cons_of_mem m hn)) hfail
    · have hh' : check_component_health env s m = false :=
        Bool.eq_false_iff.mpr hh
      cases hpm : dictLookup s.processes m with
      | none =>
        have hstep : monitor_step env reg (s, failed, restarted) m =
            (s, failed, restarted) := by
          simp [monitor_step, hh', hpm]
        rw [hstep]
        exact ih s failed restarted hnd'
          (fun n hn => hframe n (List.mem_cons_of_mem m hn)) hfail
      | some inst =>
        have hwit : monitorFailedWitness env st0 m →
            ∀ n ∈ failed ++ [m], monitorFailedWitness env st0 n := by
          intro hm n hn
          rcases List.mem_append.mp hn with h | h
          · exact hfail n h
          · rw [List.mem_singleton.mp h]
            exact hm
        by_cases hpa : inst.component_info.restart_policy = "always"
        · have hstep : monitor_step env reg (s, failed, restarted) m =
              (restart_component env reg s m, failed, restarted ++ [m]) := by
            simp [monitor_step, hh', hpm, hpa]
          rw [hstep]
          exact ih _ failed _ hnd' hframe_restart hfail
        · by_cases hpf : inst.component_info.restart_policy = "on_failure"
          · by_cases hrc : inst.restart_count < 3
            · have hstep : monitor_step env reg (s, failed, restarted) m =
                  (restart_component env reg s m, failed, restarted ++ [m]) := by
                simp [monitor_step, hh', hpm, hpa, hpf, hrc]
              rw [hstep]
              exact ih _ failed _ hnd' hframe_restart hfail
            · have hstep : monitor_step env reg (s, failed, restarted) m =
                  (s, failed ++ [m], restarted) := by
                simp [monitor_step, hh', hpm, hpa, hpf, hrc]
              rw [hstep]
              have hcount : 3 ≤ inst.restart_count := Nat.le_of_not_lt hrc
              refine ih s _ restarted hnd'
                (fun n hn => hframe n (List.mem_cons_of_mem m hn)) ?_
              refine hwit ⟨inst, ?_, ?_, hpa, fun _ => hcount⟩
              · rw [← hframe_m]
                exact hpm
              · rw [← check_component_health_congr env m hframe_m]
                exact hh'
          · have hstep : monitor_step env reg (s, failed, restarted) m =
                (s, failed ++ [m], restarted) := by
              simp [monitor_step, hh', hpm, hpa, hpf]
            rw [hstep]
            refine ih s _ restarted hnd'
              (fun n hn => hframe n (List.mem_cons_of_mem m hn)) ?_
            refine hwit ⟨inst, ?_, ?_, hpa, fun h => absurd h hpf⟩
            · rw [← hframe_m]
              exact hpm
            · rw [← check_component_health_congr env m hframe_m]
              exact hh'

/-- C10: in a monitor iteration over a state whose components all carry one of
the three policies, a component with policy `always` is never added to that
iteration's failed set, and the CRITICAL ALERT (`critical_failed` nonempty) is
raised only when some unhealthy critical component has policy `manual` or has
policy `on_failure` with its restart counter at or above the ceiling of 3 —
never because of an `always` component. -/
theorem C10_alert_only_for_manual_or_exhausted (env : Env) (reg : Registry)
    (st : OrchState)
    (hnd : (st.processes.map Prod.fst).Nodup)
    (hpol : ∀ n inst, dictLookup st.processes n = some inst →
      inst.component_info.restart_policy = "always" ∨
      inst.component_info.restart_policy = "on_failure" ∨
      inst.component_info.restart_policy = "manual") :
    (∀ n inst, dictLookup st.processes n = some inst →
      inst.component_info.restart_policy = "always" →
      n ∉ (monitor_iteration env reg st).2.1) ∧
    ((monitor_iteration env reg st).2.2.2 ≠ [] →
      ∃ n inst, n ∈ (monitor_iteration env reg st).2.1 ∧
        criticalOf reg n = true ∧
        dictLookup st.processes n = some inst ∧
        check_component_health env st n = false ∧
        (inst.component_info.restart_policy = "manual" ∨
         (inst.component_info.restart_policy = "on_failure" ∧
           3 ≤ inst.restart_count))) := by
  have hkey := monitor_fold_failed env reg st (st.processes.map Prod.fst) st [] []
    hnd (fun n _ => rfl) (fun n hn => absurd hn (List.not_mem_nil n))
  constructor
  · intro n inst hlk hpa hmem
    obtain ⟨inst', hlk', _, hne', _⟩ := hkey n hmem
    have : inst' = inst := by
      rw [hlk] at hlk'
      exact (Option.some.inj hlk').symm
    rw [this] at hne'
    exact hne' hpa
  · intro hne
    obtain ⟨n, hnf⟩ := List.exists_mem_of_ne_nil _ hne
    have hncrit : criticalOf reg n = true := (List.mem_filter.mp hnf).2
    have hnfailed : n ∈ (monitor_iteration env reg st).2.1 :=
      (List.mem_filter.mp hnf).1
    obtain ⟨inst, hlk, hh, hna, hof⟩ := hkey n hnfailed
    refine ⟨n, inst, hnfailed, hncrit, hlk, hh, ?_⟩
    rcases hpol n inst hlk with h | h | h
    · exact absurd h hna
    · exact Or.inr ⟨h, hof h⟩
    · exact Or.inl h

/-- C10 witness: with `alw` (policy `always`) and the critical `man` (policy
`manual`) both unhealthy, the iteration restarts `alw`, never puts it in the
failed set, and raises the alert exactly for `man`. -/
theorem C10_alert_only_for_manual_or_exhausted_witness :
    ("alw" ∉ (monitor_iteration c10env c10reg c10st).2.1) ∧
    (monitor_iteration c10env c10reg c10st).2.2.2 = ["man"] ∧
    (∃ n inst, n ∈ (monitor_iteration c10env c10reg c10st).2.1 ∧
      criticalOf c10reg n = true ∧
      dictLookup c10st.processes n = some inst ∧
      check_component_health c10env c10st n = false ∧
      (inst.component_info.restart_policy = "manual" ∨
       (inst.component_info.restart_policy = "on_failure" ∧
         3 ≤ inst.restart_count))) := by
  have hpol : ∀ n inst, dictLookup c10st.processes n = some inst →
      inst.component_info.restart_policy = "always" ∨
      inst.component_info.restart_policy = "on_failure" ∨
      inst.component_info.restart_policy = "manual" := by
    intro n inst hlk
    have hmem := dictLookup_mem hlk
    simp only [c10st, List.mem_cons, List.not_mem_nil, or_false,
      Prod.mk.injEq] at hmem
    rcases hmem with ⟨-, rfl⟩ | ⟨-, rfl⟩
    · left; rfl
    · right; right; rfl
  have h := C10_alert_only_for_manual_or_exhausted c10env c10reg c10st
    (by decide) hpol
  refine ⟨h.1 "alw" ⟨0, 0, alwSpec⟩ (by decide) rfl, by decide, h.2 (by decide)⟩

/-- C1 (evaluation of the code at the failing input): component `c` has policy
`on_failure`, is unhealthy on every probe (its port 5000 never answers while
the process stays alive) and every stop and start succeeds.  Across four
monitor iterations it is auto-restarted every single time — the 4th included —
the failed set stays empty each iteration, and after the 4th iteration the
restart counter is still 0 (the clock value 5 records the initial start plus 4
restarts).  Each successful restart re-creates the instance with
`restart_count = 0` (line 349), wiping the increment `restart_component` made
(line 632), so the "Max 3 restart attempts" ceiling (line 666) never binds and
the component is never added to the failed set. -/
theorem C1_on_failure_restart_unbounded_eval :
    ((monitor_iteration c1env c1reg (c1iter 0)).2.1 = [] ∧
     (monitor_iteration c1env c1reg (c1iter 0)).2.2.1 = ["c"]) ∧
    ((monitor_iteration c1env c1reg (c1iter 1)).2.1 = [] ∧
     (monitor_iteration c1env c1reg (c1iter 1)).2.2.1 = ["c"]) ∧
    ((monitor_iteration c1env c1reg (c1iter 2)).2.1 = [] ∧
     (monitor_iteration c1env c1reg (c1iter 2)).2.2.1 = ["c"]) ∧
    ((monitor_iteration c1env c1reg (c1iter 3)).2.1 = [] ∧
     (monitor_iteration c1env c1reg (c1iter 3)).2.2.1 = ["c"]) ∧
    ((c1iter 4).processes.map (fun p => (p.1, p.2.restart_count)) = [("c", 0)]) ∧
    (c1iter 4).clock = 5 := by decide

/-- C2 (evaluation of the code at the failing input): `c` is started (counter
0); a restart during which `terminate()` raises leaves the bumped entry in the
map (counter 1, since the failed stop keeps the old entry and the subsequent
start is a no-op on an already-present key); a later successful restart
deletes the entry and `start_component` re-creates it with `restart_count = 0`
— the counter goes 0, 1, 0 while `c` is supervised throughout, so it is not
monotone. -/
theorem C2_restart_counter_not_monotone_eval :
    ((dictLookup c2st1.processes "c").map RunningInstance.restart_count
      = some 0) ∧
    ((dictLookup c2st2.processes "c").map RunningInstance.restart_count
      = some 1) ∧
    ((dictLookup c2st3.processes "c").map RunningInstance.restart_count
      = some 0) := by decide

end Orchestrator
